import Mathlib

/-!
Verification of the dependency-graph visualizer (`src/main.py`).

The development shallowly embeds the graph-construction and rendering engine
of the Python script:

* `get_package_info_from_file` models the file-backed manifest source
  (`main.py` lines 131-160); it is total, returning a default record for a
  missing package or an unreadable file.
* The remote npm source (`get_package_info_from_npm`, lines 107-129) is
  modelled as an arbitrary `ManifestSource` value that may fail, matching its
  contract (returns version + dependencies, or raises).
* `build_dependency_graph_bfs_recursive` (lines 162-208) is embedded as
  `buildRec`/`buildStep`: the recursion over the FIFO queue is driven by a
  fuel parameter (the Python function recurses once per dequeued entry);
  `none` means the fuel ran out.  The per-node `try/except`, the depth
  truncation, the mutual-edge cycle check and the global visited set are
  reproduced branch for branch.  Printed diagnostics (cycle messages, depth
  warnings, per-node error messages) are collected in the state.
* `print_ascii_tree_bfs_recursive` (lines 315-349) is embedded as
  `renderRec`/`renderLevel`, with the printed lines collected in a list.

Python's `dict` is modelled as an insertion-ordered association list.
-/

/-- Version plus declared dependencies of one package, as returned by either
manifest source (`{'name': .., 'version': .., 'dependencies': ..}`; the name
field is redundant and omitted). A dependency maps a name to a version label. -/
structure NodeInfo where
  version : String
  dependencies : List (String × String)
deriving Repr, DecidableEq

/-- A raw entry of the JSON test file: both fields are optional, the code
supplies defaults (`'1.0.0'` and `{}`). -/
structure RawEntry where
  version : Option String
  dependencies : Option (List (String × String))
deriving Repr, DecidableEq

/-- First-match lookup in an insertion-ordered association list (Python
`dict` access). -/
def lookupA {α : Type} : List (String × α) → String → Option α
  | [], _ => none
  | (k, v) :: t, n => if k = n then some v else lookupA t n

/-- The ForwardGraph: `self.dependency_graph`, package name → recorded
version and dependency set, in insertion order. -/
abbrev Graph := List (String × NodeInfo)

/-- Key set of the ForwardGraph, in insertion order. -/
def keysL (g : Graph) : List String := g.map Prod.fst

/-- Python dict assignment `g[n] = i`: overwrite in place if the key exists,
append otherwise. -/
def updateG (g : Graph) (n : String) (i : NodeInfo) : Graph :=
  if (lookupA g n).isSome then
    g.map (fun p => if p.1 = n then (n, i) else p)
  else
    g ++ [(n, i)]

/-- Names of the declared dependencies (`dependencies.keys()`). -/
def depKeys (i : NodeInfo) : List String := i.dependencies.map Prod.fst

/-- A manifest source: fetch a package's info or fail (`NotFound` and
transport errors are both just raised exceptions in the Python code). -/
abbrev ManifestSource := String → Except String NodeInfo

/-- Embedding of `get_package_info_from_file` (lines 131-160).  `file = none`
models an unreadable/unparsable test file (the internal `except` branch);
a missing package name yields the default record instead of an error. -/
def get_package_info_from_file (file : Option (List (String × RawEntry)))
    (package_name : String) : NodeInfo :=
  match file with
  | none => ⟨"unknown", []⟩
  | some data =>
    match lookupA data package_name with
    | some e => ⟨e.version.getD "1.0.0", e.dependencies.getD []⟩
    | none => ⟨"unknown", []⟩

/-- The file-backed manifest source used when `--test-mode` is set: it never
fails, because `get_package_info_from_file` swallows every error internally. -/
def fileSource (file : Option (List (String × RawEntry))) : ManifestSource :=
  fun n => Except.ok (get_package_info_from_file file n)

/-- Mutable state of one build invocation: the ForwardGraph, the global
visited set, and the printed diagnostics (cycle messages as the pair of
names printed on line 196, depth warnings as the package name printed on
line 172, per-node fetch errors as the name printed on line 205).
`fetchLog` records every manifest fetch attempt, in order. -/
structure BState where
  graph : Graph
  visited : List String
  cycles : List (String × String)
  warnings : List String
  errors : List String
  fetchLog : List String
deriving Repr, DecidableEq

/-- The dependency loop of `build_dependency_graph_bfs_recursive`
(lines 193-202): the cycle check against the already-recorded graph, the
visited check, and the enqueue at `depth + 1`. -/
structure DepsOut where
  visited : List String
  cycles : List (String × String)
  queue : List (String × Nat)
deriving Repr, DecidableEq

/-- The cycle check of line 195: `dep_name in self.dependency_graph and
current_package in self.dependency_graph.get(dep_name, {}).get('dependencies', {})`. -/
def isCycleEdge (g : Graph) (cur dep : String) : Bool :=
  match lookupA g dep with
  | some i => decide (cur ∈ depKeys i)
  | none => false

/-- One pass of the `for dep_name in dependencies.keys()` loop (lines
193-202), threading the visited set, the cycle diagnostics and the queue. -/
def procDeps (g : Graph) (cur : String) (depth : Nat) :
    List String → List String → List (String × String) → List (String × Nat) → DepsOut
  | [], v, c, q => ⟨v, c, q⟩
  | dep :: rest, v, c, q =>
    if isCycleEdge g cur dep then
      procDeps g cur depth rest v (c ++ [(cur, dep)]) q
    else if dep ∈ v then
      procDeps g cur depth rest v c q
    else
      procDeps g cur depth rest (v ++ [dep]) c (q ++ [(dep, depth + 1)])

/-- The body of `build_dependency_graph_bfs_recursive` for one dequeued
entry (lines 169-205): depth truncation, fetch with the node-scoped
`try/except`, graph assignment and the dependency loop.  Returns the queue
and state passed to the tail recursive call of line 174 / 208. -/
def buildStep (fetch : ManifestSource) (maxD : Nat) (cur : String) (depth : Nat)
    (rest : List (String × Nat)) (s : BState) : List (String × Nat) × BState :=
  if maxD < depth then
    (rest, { s with warnings := s.warnings ++ [cur] })
  else
    match fetch cur with
    | Except.error _ =>
      (rest, { s with errors := s.errors ++ [cur], fetchLog := s.fetchLog ++ [cur] })
    | Except.ok info =>
      let g := updateG s.graph cur info
      let out := procDeps g cur depth (depKeys info) s.visited s.cycles rest
      (out.queue,
       { graph := g, visited := out.visited, cycles := out.cycles,
         warnings := s.warnings, errors := s.errors,
         fetchLog := s.fetchLog ++ [cur] })

/-- Embedding of `build_dependency_graph_bfs_recursive` (lines 162-208).
The Python function recurses once per dequeued queue entry; `fuel` bounds
that recursion, and `none` reports fuel exhaustion (never reached with
enough fuel, see the totality theorem). -/
def buildRec (fetch : ManifestSource) (maxD : Nat) :
    Nat → List (String × Nat) → BState → Option BState
  | _, [], s => some s
  | 0, _ :: _, _ => none
  | fuel + 1, (cur, depth) :: rest, s =>
    let p := buildStep fetch maxD cur depth rest s
    buildRec fetch maxD fuel p.1 p.2

/-- The state at the start of `build_dependency_graph_bfs` (lines 210-214):
empty graph and diagnostics, root seeded into the visited set. -/
def initState (root : String) : BState := ⟨[], [root], [], [], [], []⟩

/-- Embedding of `build_dependency_graph_bfs` (lines 210-214): seed the
queue with `(root, 0)`, seed the visited set with the root, and run the
recursion with `max_depth := args.depth`. -/
def build (fetch : ManifestSource) (root : String) (maxD fuel : Nat) : Option BState :=
  buildRec fetch maxD fuel [(root, 0)] (initState root)

/-! ### ASCII tree renderer -/

/-- Result of one level of `print_ascii_tree_bfs_recursive`: the printed
lines, the next-level queue and the updated visited set. -/
structure LevelOut where
  lines : List String
  next : List String
  visited : List String
deriving Repr, DecidableEq

/-- The `for i, package in enumerate(queue)` loop of lines 326-344: an
already-visited element is skipped (but still consumes its index `i`); an
element present in the graph prints `name (version)` and schedules its
unvisited dependencies; an element absent from the graph prints the
`(не раскрыто)` leaf. -/
def renderLevel (g : Graph) (size : Nat) (pre : String) :
    Nat → List String → List String → LevelOut
  | _, [], vis => ⟨[], [], vis⟩
  | i, pkg :: rest, vis =>
    if pkg ∈ vis then
      renderLevel g size pre (i + 1) rest vis
    else
      let vis' := vis ++ [pkg]
      let connector := if i = size - 1 then "└── " else "├── "
      match lookupA g pkg with
      | some info =>
        let line := pre ++ connector ++ pkg ++ " (" ++ info.version ++ ")"
        let newDeps := (depKeys info).filter (fun d => !decide (d ∈ vis'))
        let out := renderLevel g size pre (i + 1) rest vis'
        ⟨line :: out.lines, newDeps ++ out.next, out.visited⟩
      | none =>
        let line := pre ++ connector ++ pkg ++ " (не раскрыто)"
        let out := renderLevel g size pre (i + 1) rest vis'
        ⟨line :: out.lines, out.next, out.visited⟩

/-- Embedding of `print_ascii_tree_bfs_recursive` (lines 315-349): one level
per recursive call, the prefix growing by four spaces per level.  `fuel`
bounds the level recursion; `none` reports fuel exhaustion. -/
def renderRec (g : Graph) : Nat → List String → String → List String → Option (List String)
  | _, [], _, _ => some []
  | 0, _ :: _, _, _ => none
  | fuel + 1, pkg :: rest, pre, vis =>
    let q := pkg :: rest
    let out := renderLevel g q.length pre 0 q vis
    match renderRec g fuel out.next (pre ++ "    ") out.visited with
    | some ls => some (out.lines ++ ls)
    | none => none

/-- Embedding of `print_ascii_tree` (lines 351-354): render starting from a
singleton queue, empty prefix, fresh visited set. -/
def print_ascii_tree (g : Graph) (pkg : String) (fuel : Nat) : Option (List String) :=
  renderRec g fuel [pkg] "" []

/-! ### Concrete manifest sources used by the testable properties -/

/-- The literal diamond manifest `{A:[B,C], B:[D], C:[D], D:[]}` of the
spec's example scenario, as a test file. -/
def diaFile : Option (List (String × RawEntry)) :=
  some [("A", ⟨some "1.0.0", some [("B", "^1"), ("C", "^1")]⟩),
        ("B", ⟨some "1.0.0", some [("D", "^1")]⟩),
        ("C", ⟨some "1.0.0", some [("D", "^1")]⟩),
        ("D", ⟨some "1.0.0", some []⟩)]

/-- The diamond manifest as a manifest source. -/
def fDia : ManifestSource := fileSource diaFile

/-- The two-node cycle `A→{B}, B→{A}` as a test file. -/
def cyc2File : Option (List (String × RawEntry)) :=
  some [("A", ⟨some "1.0", some [("B", "^1")]⟩),
        ("B", ⟨some "1.0", some [("A", "^1")]⟩)]

/-- The two-node cycle as a manifest source. -/
def fCyc2 : ManifestSource := fileSource cyc2File

/-- A three-node cycle `A→B→C→A` as a test file. -/
def cyc3File : Option (List (String × RawEntry)) :=
  some [("A", ⟨some "1.0", some [("B", "^1")]⟩),
        ("B", ⟨some "1.0", some [("C", "^1")]⟩),
        ("C", ⟨some "1.0", some [("A", "^1")]⟩)]

/-- The three-node cycle as a manifest source. -/
def fCyc3 : ManifestSource := fileSource cyc3File

/-- The chain `A→B→C→D→E` as a test file. -/
def chainFile : Option (List (String × RawEntry)) :=
  some [("A", ⟨some "1.0", some [("B", "^1")]⟩),
        ("B", ⟨some "1.0", some [("C", "^1")]⟩),
        ("C", ⟨some "1.0", some [("D", "^1")]⟩),
        ("D", ⟨some "1.0", some [("E", "^1")]⟩),
        ("E", ⟨some "1.0", some []⟩)]

/-- The chain as a manifest source. -/
def fChain : ManifestSource := fileSource chainFile

/-- A remote-style manifest source (the npm backend) that fails for
package `B`: `A` depends on `B` and `C`, fetching `B` raises, `C` is a
leaf. -/
def fRemoteFail : ManifestSource := fun n =>
  if n = "A" then Except.ok ⟨"1.0.0", [("B", "^1"), ("C", "^1")]⟩
  else if n = "C" then Except.ok ⟨"2.0.0", []⟩
  else Except.error "network failure"

/-- The forward ForwardGraph of the two-node cycle, used to exercise the
renderer on a cyclic graph. -/
def cyc2Graph : Graph := [("A", ⟨"1.0", [("B", "^1")]⟩), ("B", ⟨"1.0", [("A", "^1")]⟩)]

/-- Depth of the first queue entry (`0` for an empty queue). -/
def headDepth : List (String × Nat) → Nat
  | [] => 0
  | p :: _ => p.2

/-- `ReachN fetch root k n`: package `n` is reachable from `root` along at
most `k` dependency edges of the manifest source. -/
def ReachN (fetch : ManifestSource) (root : String) : Nat → String → Prop
  | 0, n => n = root
  | k + 1, n => ReachN fetch root k n ∨
      ∃ m i, ReachN fetch root k m ∧ fetch m = Except.ok i ∧ n ∈ depKeys i

/-- Reachability from the root through the manifest source's edges. -/
def Reach (fetch : ManifestSource) (root n : String) : Prop :=
  ∃ k, ReachN fetch root k n

/-- `d` is the exact BFS distance of `n` from the root. -/
def Disc (fetch : ManifestSource) (root n : String) (d : Nat) : Prop :=
  ReachN fetch root d n ∧ ∀ k, ReachN fetch root k n → d ≤ k

/-- Number of graph keys not yet visited: the decreasing measure of the
renderer's level recursion. -/
def remainingKeys (g : Graph) (vis : List String) : Nat :=
  ((keysL g).toFinset \ vis.toFinset).card

/-- The two packages point at each other in the recorded graph: the shape
reported by the builder's cycle diagnostic. -/
def MutualEdge (g : Graph) (c d : String) : Prop :=
  (∃ i, lookupA g d = some i ∧ c ∈ depKeys i) ∧
  (∃ j, lookupA g c = some j ∧ d ∈ depKeys j)

/-- Invariant of the builder's recursion that holds for every manifest
source, every root and every depth bound: the graph keys and the queued
names are mutually distinct, a name is fetched at most once, everything
scheduled or recorded is in the visited set, every recorded graph entry is
the successful fetch result for its key, every cycle diagnostic is a mutual
edge of the recorded graph, and every error diagnostic names a package
whose fetch fails. -/
structure GInv (fetch : ManifestSource) (q : List (String × Nat)) (s : BState) : Prop where
  nodupKQ : (keysL s.graph ++ q.map Prod.fst).Nodup
  nodupLog : (s.fetchLog ++ q.map Prod.fst).Nodup
  visSup : ∀ x, x ∈ keysL s.graph ∨ x ∈ q.map Prod.fst ∨ x ∈ s.fetchLog → x ∈ s.visited
  keysFetched : ∀ n i, lookupA s.graph n = some i → fetch n = Except.ok i
  cyclesMut : ∀ p ∈ s.cycles, MutualEdge s.graph p.1 p.2
  errsFail : ∀ n ∈ s.errors, ∃ e, fetch n = Except.error e

/-- Strengthened invariant of the builder for a run in which every
reachable package fetches successfully and lies within the depth bound: the
queue is a BFS frontier (entries carry their exact BFS distance, depths are
nondecreasing and span at most two consecutive levels), the visited set is
exactly the keys plus the queued names, every package within the frontier
depth is already discovered, and the recorded graph mirrors the fetch
results with all recorded edges pointing into the visited set. -/
structure BInv (fetch : ManifestSource) (root : String)
    (q : List (String × Nat)) (s : BState) : Prop where
  nodupKQ : (keysL s.graph ++ q.map Prod.fst).Nodup
  visEq : ∀ x, x ∈ s.visited ↔ (x ∈ keysL s.graph ∨ x ∈ q.map Prod.fst)
  discQ : ∀ p ∈ q, Disc fetch root p.1 p.2
  sortedQ : (q.map Prod.snd).Sorted (· ≤ ·)
  windowQ : ∀ p ∈ q, ∀ r ∈ q, p.2 ≤ r.2 + 1
  frontierVis : ∀ n, q ≠ [] → ReachN fetch root (headDepth q) n → n ∈ s.visited
  frontierKey : ∀ n, q ≠ [] → ReachN fetch root (headDepth q) n →
      n ∈ keysL s.graph ∨ (n, headDepth q) ∈ q
  keysOk : ∀ n i, lookupA s.graph n = some i → fetch n = Except.ok i
  keysReach : ∀ n, n ∈ keysL s.graph → Reach fetch root n
  depsVis : ∀ n i, lookupA s.graph n = some i → ∀ d ∈ depKeys i, d ∈ s.visited
  logKeys : s.fetchLog = keysL s.graph
  rootVis : root ∈ s.visited

/-! ### Basic lemmas about the association-list operations -/

theorem lookupA_append_of_some {α : Type} {g : List (String × α)} {n : String} {i : α}
    (h : lookupA g n = some i) (g' : List (String × α)) :
    lookupA (g ++ g') n = some i := by
  induction g with
  | nil => simp [lookupA] at h
  | cons p t ih =>
    obtain ⟨k, v⟩ := p
    by_cases hk : k = n
    · subst hk
      simp only [lookupA, if_pos rfl] at h
      simp only [List.cons_append, lookupA, if_pos rfl]
      exact h
    · simp only [lookupA, hk, if_false] at h
      simp only [List.cons_append, lookupA, hk, if_false]
      exact ih h

theorem lookupA_append_of_none {α : Type} {g : List (String × α)} {n : String}
    (h : lookupA g n = none) (g' : List (String × α)) :
    lookupA (g ++ g') n = lookupA g' n := by
  induction g with
  | nil => simp
  | cons p t ih =>
    obtain ⟨k, v⟩ := p
    by_cases hk : k = n
    · simp [lookupA, hk] at h
    · simp only [lookupA, hk, if_false] at h
      simp only [List.cons_append, lookupA, hk, if_false]
      exact ih h

theorem lookupA_eq_none_iff {α : Type} {g : List (String × α)} {n : String} :
    lookupA g n = none ↔ n ∉ g.map Prod.fst := by
  induction g with
  | nil => simp [lookupA]
  | cons p t ih =>
    obtain ⟨k, v⟩ := p
    by_cases hk : k = n
    · simp [lookupA, hk]
    · simp [lookupA, hk, ih, Ne.symm hk]

theorem lookupA_isSome_iff {α : Type} {g : List (String × α)} {n : String} :
    (lookupA g n).isSome ↔ n ∈ g.map Prod.fst := by
  rcases h : lookupA g n with _ | i
  · simpa [h] using lookupA_eq_none_iff.mp h
  · simp only [Option.isSome_some, true_iff]
    by_contra hn
    rw [lookupA_eq_none_iff.mpr hn] at h
    cases h

theorem updateG_of_not_mem {g : Graph} {n : String} (i : NodeInfo)
    (h : n ∉ keysL g) : updateG g n i = g ++ [(n, i)] := by
  have : lookupA g n = none := lookupA_eq_none_iff.mpr h
  simp [updateG, this]

theorem lookupA_singleton {α : Type} (n m : String) (i : α) :
    lookupA [(n, i)] m = if n = m then some i else none := rfl

theorem isCycleEdge_iff {g : Graph} {cur dep : String} :
    isCycleEdge g cur dep = true ↔ ∃ i, lookupA g dep = some i ∧ cur ∈ depKeys i := by
  unfold isCycleEdge
  rcases h : lookupA g dep with _ | i <;> simp [h]

/-! ### Step lemmas for the builder -/

theorem buildRec_nil (fetch : ManifestSource) (maxD fuel : Nat) (s : BState) :
    buildRec fetch maxD fuel [] s = some s := by
  cases fuel <;> rfl

theorem buildRec_cons (fetch : ManifestSource) (maxD fuel : Nat)
    (cur : String) (depth : Nat) (rest : List (String × Nat)) (s : BState) :
    buildRec fetch maxD (fuel + 1) ((cur, depth) :: rest) s =
      buildRec fetch maxD fuel (buildStep fetch maxD cur depth rest s).1
        (buildStep fetch maxD cur depth rest s).2 := rfl

theorem buildStep_trunc {maxD depth : Nat} (fetch : ManifestSource) (cur : String)
    (rest : List (String × Nat)) (s : BState) (h : maxD < depth) :
    buildStep fetch maxD cur depth rest s =
      (rest, { s with warnings := s.warnings ++ [cur] }) := by
  simp [buildStep, h]

theorem buildStep_error {maxD depth : Nat} {fetch : ManifestSource} {cur : String}
    (rest : List (String × Nat)) (s : BState) (h : ¬ maxD < depth)
    {e : String} (he : fetch cur = Except.error e) :
    buildStep fetch maxD cur depth rest s =
      (rest, { s with errors := s.errors ++ [cur], fetchLog := s.fetchLog ++ [cur] }) := by
  simp [buildStep, h, he]

theorem buildStep_ok {maxD depth : Nat} {fetch : ManifestSource} {cur : String}
    (rest : List (String × Nat)) (s : BState) (h : ¬ maxD < depth)
    {info : NodeInfo} (hi : fetch cur = Except.ok info) :
    buildStep fetch maxD cur depth rest s =
      ((procDeps (updateG s.graph cur info) cur depth (depKeys info)
          s.visited s.cycles rest).queue,
       { graph := updateG s.graph cur info,
         visited := (procDeps (updateG s.graph cur info) cur depth (depKeys info)
            s.visited s.cycles rest).visited,
         cycles := (procDeps (updateG s.graph cur info) cur depth (depKeys info)
            s.visited s.cycles rest).cycles,
         warnings := s.warnings, errors := s.errors,
         fetchLog := s.fetchLog ++ [cur] }) := by
  simp [buildStep, h, hi]

/-! ### The dependency loop: closed-form characterisation -/

theorem procDeps_cons_cycle {g : Graph} {cur dep : String} {depth : Nat}
    {rest v : List String} {c : List (String × String)} {q : List (String × Nat)}
    (hc : isCycleEdge g cur dep = true) :
    procDeps g cur depth (dep :: rest) v c q =
      procDeps g cur depth rest v (c ++ [(cur, dep)]) q := by
  simp [procDeps, hc]

theorem procDeps_cons_vis {g : Graph} {cur dep : String} {depth : Nat}
    {rest v : List String} {c : List (String × String)} {q : List (String × Nat)}
    (hc : isCycleEdge g cur dep = false) (hv : dep ∈ v) :
    procDeps g cur depth (dep :: rest) v c q =
      procDeps g cur depth rest v c q := by
  simp [procDeps, hc, hv]

theorem procDeps_cons_new {g : Graph} {cur dep : String} {depth : Nat}
    {rest v : List String} {c : List (String × String)} {q : List (String × Nat)}
    (hc : isCycleEdge g cur dep = false) (hv : dep ∉ v) :
    procDeps g cur depth (dep :: rest) v c q =
      procDeps g cur depth rest (v ++ [dep]) c (q ++ [(dep, depth + 1)]) := by
  simp [procDeps, hc, hv]

theorem procDeps_cycles_eq (g : Graph) (cur : String) (depth : Nat) :
    ∀ (deps v : List String) (c : List (String × String)) (q : List (String × Nat)),
    (procDeps g cur depth deps v c q).cycles =
      c ++ (deps.filter (fun d => isCycleEdge g cur d)).map (fun d => (cur, d)) := by
  intro deps
  induction deps with
  | nil => intro v c q; simp [procDeps]
  | cons dep rest ih =>
    intro v c q
    rcases hc : isCycleEdge g cur dep with _ | _
    · by_cases hv : dep ∈ v
      · rw [procDeps_cons_vis hc hv, ih]
        simp [hc]
      · rw [procDeps_cons_new hc hv, ih]
        simp [hc]
    · rw [procDeps_cons_cycle hc, ih]
      simp [hc]

theorem procDeps_spec (g : Graph) (cur : String) (depth : Nat) :
    ∀ (deps v : List String) (c : List (String × String)) (q : List (String × Nat)),
    ∃ news : List String,
      (procDeps g cur depth deps v c q).visited = v ++ news ∧
      (procDeps g cur depth deps v c q).queue =
        q ++ news.map (fun x => (x, depth + 1)) ∧
      news.Nodup ∧
      (∀ x ∈ news, x ∈ deps ∧ x ∉ v ∧ isCycleEdge g cur x = false) ∧
      (∀ d ∈ deps, d ∈ v ++ news ∨ isCycleEdge g cur d = true) := by
  intro deps
  induction deps with
  | nil =>
    intro v c q
    exact ⟨[], by simp [procDeps]⟩
  | cons dep rest ih =>
    intro v c q
    rcases hc : isCycleEdge g cur dep with _ | _
    · by_cases hv : dep ∈ v
      · obtain ⟨news, h1, h2, h3, h4, h5⟩ := ih v c q
        rw [procDeps_cons_vis hc hv]
        refine ⟨news, h1, h2, h3, ?_, ?_⟩
        · intro x hx
          obtain ⟨hd, hnv, hcy⟩ := h4 x hx
          exact ⟨List.mem_cons_of_mem _ hd, hnv, hcy⟩
        · intro d hd
          rcases List.mem_cons.mp hd with rfl | hd'
          · exact Or.inl (List.mem_append_left _ hv)
          · exact h5 d hd'
      · obtain ⟨news, h1, h2, h3, h4, h5⟩ := ih (v ++ [dep]) c (q ++ [(dep, depth + 1)])
        rw [procDeps_cons_new hc hv]
        refine ⟨dep :: news, ?_, ?_, ?_, ?_, ?_⟩
        · rw [h1, List.append_assoc]; rfl
        · rw [h2, List.append_assoc]; rfl
        · refine List.nodup_cons.mpr ⟨?_, h3⟩
          intro hmem
          exact (h4 dep hmem).2.1 (List.mem_append_right _ (List.mem_singleton.mpr rfl))
        · intro x hx
          rcases List.mem_cons.mp hx with rfl | hx'
          · exact ⟨List.mem_cons_self _ _, hv, hc⟩
          · obtain ⟨hd, hnv, hcy⟩ := h4 x hx'
            refine ⟨List.mem_cons_of_mem _ hd, ?_, hcy⟩
            intro hxv
            exact hnv (List.mem_append_left _ hxv)
        · intro d hd
          rcases List.mem_cons.mp hd with rfl | hd'
          · exact Or.inl (List.mem_append_right _ (List.mem_cons_self _ _))
          · rcases h5 d hd' with hmem | hcy
            · left
              rcases List.mem_append.mp hmem with hmem' | hnews
              · rcases List.mem_append.mp hmem' with hv' | hdep
                · exact List.mem_append_left _ hv'
                · rw [List.mem_singleton.mp hdep]
                  exact List.mem_append_right _ (List.mem_cons_self _ _)
              · exact List.mem_append_right _ (List.mem_cons_of_mem _ hnews)
            · exact Or.inr hcy
    · obtain ⟨news, h1, h2, h3, h4, h5⟩ := ih v (c ++ [(cur, dep)]) q
      rw [procDeps_cons_cycle hc]
      refine ⟨news, h1, h2, h3, ?_, ?_⟩
      · intro x hx
        obtain ⟨hd, hnv, hcy⟩ := h4 x hx
        exact ⟨List.mem_cons_of_mem _ hd, hnv, hcy⟩
      · intro d hd
        rcases List.mem_cons.mp hd with rfl | hd'
        · exact Or.inr hc
        · exact h5 d hd'

/-! ### Claim C4: depth truncation -/

/-- C4: a node dequeued at a depth strictly exceeding `maxDepth` stops the
expansion of its branch (the step continues with the remaining queue only),
emits a truncation warning, and leaves the ForwardGraph untouched; on the
chain `A→B→C→D→E` with `maxDepth = 2`, the keys are exactly `A`, `B`, `C`,
the warning names `D`, and `D` appears only as an edge target in `C`'s
recorded dependency set. -/
theorem c4_depth_truncation :
    (∀ (fetch : ManifestSource) (maxD fuel : Nat) (cur : String) (d : Nat)
       (rest : List (String × Nat)) (s : BState), maxD < d →
       buildRec fetch maxD (fuel + 1) ((cur, d) :: rest) s =
         buildRec fetch maxD fuel rest { s with warnings := s.warnings ++ [cur] }) ∧
    (build fChain "A" 2 10).map (fun s => keysL s.graph) = some ["A", "B", "C"] ∧
    (build fChain "A" 2 10).map BState.warnings = some ["D"] ∧
    (build fChain "A" 2 10).map (fun s => (lookupA s.graph "C").map depKeys) =
      some (some ["D"]) := by
  refine ⟨?_, rfl, rfl, rfl⟩
  intro fetch maxD fuel cur d rest s h
  rw [buildRec_cons, buildStep_trunc _ _ _ _ h]

/-- C4 witness: the truncation step at the concrete entry `("D", 3)` with
`maxDepth = 2`. -/
theorem c4_depth_truncation_witness :
    buildRec fChain 2 (7 + 1) [("D", 3)] (initState "A") =
      buildRec fChain 2 7 [] { initState "A" with warnings := [] ++ ["D"] } := by
  have h := c4_depth_truncation.1 fChain 2 7 "D" 3 [] (initState "A") (by decide)
  simpa using h

/-! ### Claim C7: the two-node cycle terminates and is reported -/

/-- C7: building from `A` over the manifest `A→{B}, B→{A}` terminates (the
run completes within finite fuel) and yields a non-empty cycle-diagnostic
list whose entry passes through `A` and `B`. -/
theorem c7_two_cycle_terminates :
    (build fCyc2 "A" 3 10).isSome = true ∧
    (build fCyc2 "A" 3 10).map BState.cycles = some [("B", "A")] := ⟨rfl, rfl⟩

/-! ### Claim C1: what the cycle check actually detects -/

/-- C1 counterexample: over the three-cycle `A→B→C→A` (all edges shown
explicitly), the build reaches the closing edge `C→A` yet records no cycle
diagnostic at all, refuting "this holds for every cycle reachable from the
root, regardless of the cycle's length". -/
theorem c1_counterexample :
    fCyc3 "A" = Except.ok ⟨"1.0", [("B", "^1")]⟩ ∧
    fCyc3 "B" = Except.ok ⟨"1.0", [("C", "^1")]⟩ ∧
    fCyc3 "C" = Except.ok ⟨"1.0", [("A", "^1")]⟩ ∧
    (build fCyc3 "A" 5 10).map BState.cycles = some [] := ⟨rfl, rfl, rfl, rfl⟩

/-! ### Claim C10: the mutual-edge cycle check -/

/-- C10: the cycle check inspects only the direct mutual edge — it fires
exactly when the dependency is already a ForwardGraph key whose recorded
dependency set contains the current package, and the recorded diagnostics
are exactly the pairs `(current, dep)` for the dependencies that pass that
test; over the three-cycle `A→B→C→A` no diagnostic is produced, yet the
build terminates with keys `A`, `B`, `C`. -/
theorem c10_mutual_edge_check_only :
    (∀ (g : Graph) (cur dep : String), isCycleEdge g cur dep = true ↔
       ∃ i, lookupA g dep = some i ∧ cur ∈ depKeys i) ∧
    (∀ (g : Graph) (cur : String) (depth : Nat) (deps v : List String)
       (c : List (String × String)) (q : List (String × Nat)),
       (procDeps g cur depth deps v c q).cycles =
         c ++ (deps.filter (fun d => isCycleEdge g cur d)).map (fun d => (cur, d))) ∧
    (build fCyc3 "A" 5 10).map BState.cycles = some [] ∧
    (build fCyc3 "A" 5 10).map (fun s => keysL s.graph) = some ["A", "B", "C"] :=
  ⟨fun _ _ _ => isCycleEdge_iff, procDeps_cycles_eq, rfl, rfl⟩

/-! ### Claim C2: behaviour on fetch failure -/

/-- C2 counterexample: with the remote backend failing on `B` (reached from
root `A`), the final ForwardGraph keys are `A` and `C` only — the failed
node `B` is *not* recorded with an empty dependency set, it is absent from
the graph (only the error diagnostic names it). -/
theorem c2_counterexample :
    fRemoteFail "B" = Except.error "network failure" ∧
    (build fRemoteFail "A" 3 10).map (fun s => keysL s.graph) = some ["A", "C"] ∧
    (build fRemoteFail "A" 3 10).map BState.errors = some ["B"] := ⟨rfl, rfl, rfl⟩

/-! ### Renderer: step lemmas -/

theorem renderLevel_nil (g : Graph) (size : Nat) (pre : String) (i : Nat)
    (vis : List String) : renderLevel g size pre i [] vis = ⟨[], [], vis⟩ := rfl

theorem renderLevel_cons_vis {g : Graph} {size : Nat} {pre : String} {i : Nat}
    {pkg : String} {rest vis : List String} (hv : pkg ∈ vis) :
    renderLevel g size pre i (pkg :: rest) vis =
      renderLevel g size pre (i + 1) rest vis := by
  simp [renderLevel, hv]

theorem renderLevel_cons_key {g : Graph} {size : Nat} {pre : String} {i : Nat}
    {pkg : String} {rest vis : List String} {info : NodeInfo}
    (hv : pkg ∉ vis) (hk : lookupA g pkg = some info) :
    renderLevel g size pre i (pkg :: rest) vis =
      ⟨(pre ++ (if i = size - 1 then "└── " else "├── ") ++ pkg ++
          " (" ++ info.version ++ ")") ::
          (renderLevel g size pre (i + 1) rest (vis ++ [pkg])).lines,
       (depKeys info).filter (fun d => !decide (d ∈ vis ++ [pkg])) ++
          (renderLevel g size pre (i + 1) rest (vis ++ [pkg])).next,
       (renderLevel g size pre (i + 1) rest (vis ++ [pkg])).visited⟩ := by
  simp [renderLevel, hv, hk]

theorem renderLevel_cons_absent {g : Graph} {size : Nat} {pre : String} {i : Nat}
    {pkg : String} {rest vis : List String}
    (hv : pkg ∉ vis) (hk : lookupA g pkg = none) :
    renderLevel g size pre i (pkg :: rest) vis =
      ⟨(pre ++ (if i = size - 1 then "└── " else "├── ") ++ pkg ++ " (не раскрыто)") ::
          (renderLevel g size pre (i + 1) rest (vis ++ [pkg])).lines,
       (renderLevel g size pre (i + 1) rest (vis ++ [pkg])).next,
       (renderLevel g size pre (i + 1) rest (vis ++ [pkg])).visited⟩ := by
  simp [renderLevel, hv, hk]

theorem renderRec_cons (g : Graph) (fuel : Nat) (pkg : String) (rest : List String)
    (pre : String) (vis : List String) :
    renderRec g (fuel + 1) (pkg :: rest) pre vis =
      match renderRec g fuel
          (renderLevel g (pkg :: rest).length pre 0 (pkg :: rest) vis).next
          (pre ++ "    ")
          (renderLevel g (pkg :: rest).length pre 0 (pkg :: rest) vis).visited with
      | some ls =>
          some ((renderLevel g (pkg :: rest).length pre 0 (pkg :: rest) vis).lines ++ ls)
      | none => none := rfl

/-- The visited set only grows during a level, by names taken from the
queue, and a non-empty next-level queue certifies that some previously
unvisited graph key was processed (and hence newly visited) this level. -/
theorem renderLevel_visited_spec (g : Graph) (size : Nat) (pre : String) :
    ∀ (q : List String) (i : Nat) (vis : List String),
    (∃ app, (renderLevel g size pre i q vis).visited = vis ++ app) ∧
    ((renderLevel g size pre i q vis).next ≠ [] →
      ∃ pkg, pkg ∉ vis ∧ pkg ∈ keysL g ∧
        pkg ∈ (renderLevel g size pre i q vis).visited) := by
  intro q
  induction q with
  | nil =>
    intro i vis
    refine ⟨⟨[], by simp [renderLevel_nil]⟩, ?_⟩
    intro h
    exact absurd rfl h
  | cons pkg rest ih =>
    intro i vis
    by_cases hv : pkg ∈ vis
    · rw [renderLevel_cons_vis hv]
      exact ih (i + 1) vis
    · rcases hk : lookupA g pkg with _ | info
      · rw [renderLevel_cons_absent hv hk]
        obtain ⟨⟨app, happ⟩, hnext⟩ := ih (i + 1) (vis ++ [pkg])
        refine ⟨⟨[pkg] ++ app, by simpa [List.append_assoc] using happ⟩, ?_⟩
        intro hne
        obtain ⟨p, hp1, hp2, hp3⟩ := hnext hne
        refine ⟨p, fun hpv => hp1 (List.mem_append_left _ hpv), hp2, hp3⟩
      · rw [renderLevel_cons_key hv hk]
        obtain ⟨⟨app, happ⟩, _⟩ := ih (i + 1) (vis ++ [pkg])
        have hkey : pkg ∈ keysL g := by
          have : (lookupA g pkg).isSome := by rw [hk]; rfl
          exact lookupA_isSome_iff.mp this
        refine ⟨⟨[pkg] ++ app, by simpa [List.append_assoc] using happ⟩, ?_⟩
        intro _
        refine ⟨pkg, hv, hkey, ?_⟩
        rw [happ]
        exact List.mem_append_left _ (List.mem_append_right _ (List.mem_singleton.mpr rfl))

theorem remainingKeys_lt (g : Graph) {vis vis' : List String}
    (hsub : ∀ y ∈ vis, y ∈ vis') {x : String}
    (hx : x ∈ keysL g) (hxv : x ∉ vis) (hxv' : x ∈ vis') :
    remainingKeys g vis' < remainingKeys g vis := by
  apply Finset.card_lt_card
  rw [Finset.ssubset_def]
  constructor
  · intro y hy
    rw [Finset.mem_sdiff, List.mem_toFinset, List.mem_toFinset] at hy ⊢
    exact ⟨hy.1, fun hyv => hy.2 (hsub y hyv)⟩
  · intro hcon
    have hxmem : x ∈ (keysL g).toFinset \ vis.toFinset := by
      rw [Finset.mem_sdiff, List.mem_toFinset, List.mem_toFinset]
      exact ⟨hx, hxv⟩
    have hx' := hcon hxmem
    rw [Finset.mem_sdiff, List.mem_toFinset, List.mem_toFinset] at hx'
    exact hx'.2 hxv'

/-- The level recursion of the renderer always terminates: whatever the
queue, prefix and visited set, some amount of fuel completes the render. -/
theorem renderRec_total (g : Graph) :
    ∀ (N : Nat) (q : List String) (pre : String) (vis : List String),
    remainingKeys g vis ≤ N →
    ∃ fuel lines, renderRec g fuel q pre vis = some lines := by
  intro N
  induction N using Nat.strong_induction_on with
  | _ N IH =>
    intro q pre vis hN
    match q with
    | [] => exact ⟨0, [], rfl⟩
    | pkg :: rest =>
      obtain ⟨⟨app, happ⟩, hnext⟩ :=
        renderLevel_visited_spec g (pkg :: rest).length pre (pkg :: rest) 0 vis
      by_cases hne : (renderLevel g (pkg :: rest).length pre 0 (pkg :: rest) vis).next = []
      · refine ⟨1, (renderLevel g (pkg :: rest).length pre 0 (pkg :: rest) vis).lines ++ [], ?_⟩
        rw [renderRec_cons, hne]
        rfl
      · obtain ⟨p, hp1, hp2, hp3⟩ := hnext hne
        have hsub : ∀ y ∈ vis, y ∈ (renderLevel g (pkg :: rest).length pre 0 (pkg :: rest) vis).visited := by
          intro y hy
          rw [happ]
          exact List.mem_append_left _ hy
        have hlt : remainingKeys g
            (renderLevel g (pkg :: rest).length pre 0 (pkg :: rest) vis).visited <
            remainingKeys g vis :=
          remainingKeys_lt g hsub hp2 hp1 hp3
        obtain ⟨fuel, lines, hrun⟩ :=
          IH (remainingKeys g (renderLevel g (pkg :: rest).length pre 0 (pkg :: rest) vis).visited)
            (lt_of_lt_of_le hlt hN)
            (renderLevel g (pkg :: rest).length pre 0 (pkg :: rest) vis).next
            (pre ++ "    ")
            (renderLevel g (pkg :: rest).length pre 0 (pkg :: rest) vis).visited
            le_rfl
        refine ⟨fuel + 1, (renderLevel g (pkg :: rest).length pre 0 (pkg :: rest) vis).lines ++ lines, ?_⟩
        rw [renderRec_cons, hrun]

/-! ### Claim C8: rendering termination and revisit handling -/

/-- C8 counterexample: rendering the cyclic graph `A→B→A` from `A`
terminates after printing exactly two lines; `A` is reached again as `B`'s
dependency while still on the render path, yet no line carries a
"(cyclic reference)" annotation (the revisit is silently dropped), refuting
the claimed annotation. -/
theorem c8_counterexample :
    print_ascii_tree cyc2Graph "A" 10 = some ["└── A (1.0)", "    └── B (1.0)"] ∧
    ∀ l ∈ ["└── A (1.0)", "    └── B (1.0)"],
      ¬ List.IsInfix "(cyclic reference)".toList l.toList :=
  ⟨rfl, by decide⟩

/-- C8 (amended): rendering the ASCII tree for any package over any
ForwardGraph (cyclic or not) terminates with finite output; a node reached
again while already in the renderer's (global) visited set is silently
skipped — it is neither printed (with any annotation) nor expanded
further. -/
theorem c8_render_terminates :
    (∀ (g : Graph) (pkg : String), ∃ fuel lines,
        print_ascii_tree g pkg fuel = some lines) ∧
    (∀ (g : Graph) (size : Nat) (pre : String) (i : Nat) (pkg : String)
       (rest vis : List String), pkg ∈ vis →
       renderLevel g size pre i (pkg :: rest) vis =
         renderLevel g size pre (i + 1) rest vis) := by
  constructor
  · intro g pkg
    exact renderRec_total g (remainingKeys g []) [pkg] "" [] le_rfl
  · intro g size pre i pkg rest vis hv
    exact renderLevel_cons_vis hv

/-- C8 witness: the skip step at a concrete revisited node (`A` already
visited when it reappears in the level queue of `cyc2Graph`). -/
theorem c8_render_terminates_witness :
    renderLevel cyc2Graph 2 "" 0 ("A" :: ["B"]) ["A"] =
      renderLevel cyc2Graph 2 "" 1 ["B"] ["A"] :=
  c8_render_terminates.2 cyc2Graph 2 "" 0 "A" ["B"] ["A"] (by decide)

/-! ### Claim C9: leaves and expansion in forward rendering -/

/-- C9: when the renderer processes a (not yet visited) queue element, a
name absent from the ForwardGraph's key set is printed as a leaf annotated
`(не раскрыто)` ("unexpanded") and contributes nothing to the next level,
while a name present in the key set is printed with its version label and
its not-yet-visited dependencies are scheduled for the next level. -/
theorem c9_unexpanded_leaves :
    ∀ (g : Graph) (size : Nat) (pre : String) (i : Nat) (pkg : String)
      (rest vis : List String), pkg ∉ vis →
    (lookupA g pkg = none →
      ((renderLevel g size pre i (pkg :: rest) vis).lines.head? =
        some (pre ++ (if i = size - 1 then "└── " else "├── ") ++ pkg ++
          " (не раскрыто)")) ∧
      (renderLevel g size pre i (pkg :: rest) vis).next =
        (renderLevel g size pre (i + 1) rest (vis ++ [pkg])).next) ∧
    (∀ info, lookupA g pkg = some info →
      ((renderLevel g size pre i (pkg :: rest) vis).lines.head? =
        some (pre ++ (if i = size - 1 then "└── " else "├── ") ++ pkg ++
          " (" ++ info.version ++ ")")) ∧
      (renderLevel g size pre i (pkg :: rest) vis).next =
        (depKeys info).filter (fun d => !decide (d ∈ vis ++ [pkg])) ++
          (renderLevel g size pre (i + 1) rest (vis ++ [pkg])).next) := by
  intro g size pre i pkg rest vis hv
  constructor
  · intro hk
    rw [renderLevel_cons_absent hv hk]
    exact ⟨rfl, rfl⟩
  · intro info hk
    rw [renderLevel_cons_key hv hk]
    exact ⟨rfl, rfl⟩

/-- C9 witness: concrete instances of both render branches — the
unexpanded leaf for a name (`X`) absent from `cyc2Graph`, and the
version-labelled line with scheduled dependencies for the key `A`. -/
theorem c9_unexpanded_leaves_witness :
    (renderLevel cyc2Graph 1 "" 0 ["X"] []).lines.head? =
      some ("" ++ "└── " ++ "X" ++ " (не раскрыто)") ∧
    (renderLevel cyc2Graph 1 "" 0 ["A"] []).lines.head? =
      some ("" ++ "└── " ++ "A" ++ " (" ++ "1.0" ++ ")") ∧
    (renderLevel cyc2Graph 1 "" 0 ["A"] []).next = ["B"] := by
  have h1 := (c9_unexpanded_leaves cyc2Graph 1 "" 0 "X" [] [] (by decide)).1 rfl
  have h2 := (c9_unexpanded_leaves cyc2Graph 1 "" 0 "A" [] [] (by decide)).2
    ⟨"1.0", [("B", "^1")]⟩ rfl
  refine ⟨by simpa using h1.1, by simpa using h2.1, ?_⟩
  rw [h2.2]
  rfl

/-! ### The general run invariant of the builder -/

theorem nodup_append_drop_mid {α : Type} {l : List α} {x : α} {r : List α}
    (h : (l ++ x :: r).Nodup) : (l ++ r).Nodup :=
  List.Nodup.sublist (List.Sublist.append_left (List.sublist_cons_self x r) l) h

theorem append_cons_eq {α : Type} (l : List α) (x : α) (r : List α) :
    l ++ x :: r = (l ++ [x]) ++ r := by
  rw [List.append_assoc]
  rfl

theorem mem_keys_updateG (g : Graph) (n : String) (i : NodeInfo) :
    n ∈ keysL (updateG g n i) := by
  unfold updateG
  by_cases h : (lookupA g n).isSome
  · rw [if_pos h]
    have hn : n ∈ g.map Prod.fst := lookupA_isSome_iff.mp h
    obtain ⟨p, hp, hfst⟩ := List.mem_map.mp hn
    unfold keysL
    rw [List.map_map]
    refine List.mem_map.mpr ⟨p, hp, ?_⟩
    simp [Function.comp, hfst]
  · rw [if_neg h]
    unfold keysL
    rw [List.map_append]
    exact List.mem_append_right _ (List.mem_singleton.mpr rfl)

theorem ginv_init (fetch : ManifestSource) (root : String) :
    GInv fetch [(root, 0)] (initState root) := by
  refine ⟨?_, ?_, ?_, ?_, ?_, ?_⟩
  · simp [keysL, initState]
  · simp [initState]
  · intro x hx
    simp [keysL, initState] at hx ⊢
    tauto
  · intro n i h
    simp [initState, lookupA] at h
  · intro p hp
    simp [initState] at hp
  · intro n hn
    simp [initState] at hn

theorem ginv_step (fetch : ManifestSource) (maxD : Nat) (cur : String) (depth : Nat)
    (rest : List (String × Nat)) (s : BState)
    (h : GInv fetch ((cur, depth) :: rest) s) :
    GInv fetch (buildStep fetch maxD cur depth rest s).1
      (buildStep fetch maxD cur depth rest s).2 := by
  obtain ⟨nodupKQ, nodupLog, visSup, keysFetched, cyclesMut, errsFail⟩ := h
  simp only [List.map_cons] at nodupKQ nodupLog
  by_cases ht : maxD < depth
  · rw [buildStep_trunc _ _ _ _ ht]
    refine ⟨nodup_append_drop_mid nodupKQ, nodup_append_drop_mid nodupLog, ?_,
      keysFetched, cyclesMut, errsFail⟩
    intro x hx
    refine visSup x ?_
    rcases hx with hk | hq | hl
    · exact Or.inl hk
    · exact Or.inr (Or.inl (List.mem_cons_of_mem _ hq))
    · exact Or.inr (Or.inr hl)
  · rcases hf : fetch cur with e | info
    · rw [buildStep_error _ _ ht hf]
      refine ⟨nodup_append_drop_mid nodupKQ, ?_, ?_, keysFetched, cyclesMut, ?_⟩
      · rw [← append_cons_eq]
        exact nodupLog
      · intro x hx
        refine visSup x ?_
        rcases hx with hk | hq | hl
        · exact Or.inl hk
        · exact Or.inr (Or.inl (List.mem_cons_of_mem _ hq))
        · rcases List.mem_append.mp hl with hl' | hc
          · exact Or.inr (Or.inr hl')
          · exact Or.inr (Or.inl (by
              rw [List.mem_singleton.mp hc]
              exact List.mem_cons_self _ _))
      · intro n hn
        rcases List.mem_append.mp hn with hn' | hc
        · exact errsFail n hn'
        · rw [List.mem_singleton.mp hc]
          exact ⟨e, hf⟩
    · rw [buildStep_ok _ _ ht hf]
      have hcurNotKey : cur ∉ keysL s.graph := by
        intro hmem
        have hdis := (List.nodup_append.mp nodupKQ).2.2
        exact hdis hmem (List.mem_cons_self _ _)
      have hcurNone : lookupA s.graph cur = none := lookupA_eq_none_iff.mpr hcurNotKey
      have hupd : updateG s.graph cur info = s.graph ++ [(cur, info)] :=
        updateG_of_not_mem info hcurNotKey
      rw [hupd]
      obtain ⟨news, hv, hq, hnodup, hnews, hcomp⟩ :=
        procDeps_spec (s.graph ++ [(cur, info)]) cur depth (depKeys info)
          s.visited s.cycles rest
      have hkeys' : keysL (s.graph ++ [(cur, info)]) = keysL s.graph ++ [cur] := by
        unfold keysL
        rw [List.map_append]
        rfl
      have hcurVis : cur ∈ s.visited :=
        visSup cur (Or.inr (Or.inl (List.mem_cons_self _ _)))
      have hnewsFresh : ∀ x ∈ news, x ∉ s.visited := fun x hx => (hnews x hx).2.1
      have hqnames : (procDeps (s.graph ++ [(cur, info)]) cur depth (depKeys info)
          s.visited s.cycles rest).queue.map Prod.fst = rest.map Prod.fst ++ news := by
        rw [hq, List.map_append, List.map_map]
        rw [show (Prod.fst ∘ fun x => (x, depth + 1)) = fun x : String => x from rfl]
        rw [List.map_id']
      refine ⟨?_, ?_, ?_, ?_, ?_, ?_⟩
      · -- nodupKQ
        rw [hqnames, hkeys']
        have hre : (keysL s.graph ++ [cur]) ++ (rest.map Prod.fst ++ news) =
            ((keysL s.graph ++ [cur]) ++ rest.map Prod.fst) ++ news := by
          simp [List.append_assoc]
        rw [hre, ← append_cons_eq]
        refine List.nodup_append.mpr ⟨nodupKQ, hnodup, ?_⟩
        intro a ha haNews
        have haVis : a ∈ s.visited := by
          rcases List.mem_append.mp ha with hk | hq'
          · exact visSup a (Or.inl hk)
          · rcases List.mem_cons.mp hq' with rfl | hr
            · exact hcurVis
            · exact visSup a (Or.inr (Or.inl (List.mem_cons_of_mem _ hr)))
        exact hnewsFresh a haNews haVis
      · -- nodupLog
        rw [hqnames]
        have hre : (s.fetchLog ++ [cur]) ++ (rest.map Prod.fst ++ news) =
            ((s.fetchLog ++ [cur]) ++ rest.map Prod.fst) ++ news := by
          simp [List.append_assoc]
        rw [hre, ← append_cons_eq]
        refine List.nodup_append.mpr ⟨nodupLog, hnodup, ?_⟩
        intro a ha haNews
        have haVis : a ∈ s.visited := by
          rcases List.mem_append.mp ha with hl | hq'
          · exact visSup a (Or.inr (Or.inr hl))
          · rcases List.mem_cons.mp hq' with rfl | hr
            · exact hcurVis
            · exact visSup a (Or.inr (Or.inl (List.mem_cons_of_mem _ hr)))
        exact hnewsFresh a haNews haVis
      · -- visSup
        intro x hx
        rw [hv]
        rw [hqnames, hkeys'] at hx
        rcases hx with hk | hq' | hl
        · rcases List.mem_append.mp hk with hk' | hc
          · exact List.mem_append_left _ (visSup x (Or.inl hk'))
          · rw [List.mem_singleton.mp hc]
            exact List.mem_append_left _ hcurVis
        · rcases List.mem_append.mp hq' with hr | hn
          · exact List.mem_append_left _
              (visSup x (Or.inr (Or.inl (List.mem_cons_of_mem _ hr))))
          · exact List.mem_append_right _ hn
        · rcases List.mem_append.mp hl with hl' | hc
          · exact List.mem_append_left _ (visSup x (Or.inr (Or.inr hl')))
          · rw [List.mem_singleton.mp hc]
            exact List.mem_append_left _ hcurVis
      · -- keysFetched
        intro n i h
        rcases hn : lookupA s.graph n with _ | j
        · rw [lookupA_append_of_none hn, lookupA_singleton] at h
          by_cases hcn : cur = n
          · rw [if_pos hcn] at h
            rw [← hcn, hf]
            exact congrArg Except.ok (Option.some.inj h)
          · rw [if_neg hcn] at h
            cases h
        · rw [lookupA_append_of_some hn] at h
          rw [← Option.some.inj h]
          exact keysFetched n j hn
      · -- cyclesMut
        rw [procDeps_cycles_eq]
        intro p hp
        rcases List.mem_append.mp hp with hold | hnew
        · obtain ⟨⟨i1, hi1, hm1⟩, ⟨i2, hi2, hm2⟩⟩ := cyclesMut p hold
          exact ⟨⟨i1, lookupA_append_of_some hi1 _, hm1⟩,
                 ⟨i2, lookupA_append_of_some hi2 _, hm2⟩⟩
        · obtain ⟨d, hd, rfl⟩ := List.mem_map.mp hnew
          have hd' := List.mem_filter.mp hd
          obtain ⟨i, hLook, hmem⟩ := isCycleEdge_iff.mp hd'.2
          refine ⟨⟨i, hLook, hmem⟩, ⟨info, ?_, hd'.1⟩⟩
          rw [lookupA_append_of_none hcurNone, lookupA_singleton, if_pos rfl]
      · -- errsFail
        exact errsFail

theorem ginv_run (fetch : ManifestSource) (maxD : Nat) :
    ∀ (fuel : Nat) (q : List (String × Nat)) (s st : BState),
    GInv fetch q s → buildRec fetch maxD fuel q s = some st → GInv fetch [] st := by
  intro fuel
  induction fuel with
  | zero =>
    intro q s st hg hrun
    match q with
    | [] =>
      rw [buildRec_nil] at hrun
      rw [← Option.some.inj hrun]
      exact hg
    | _ :: _ => cases hrun
  | succ fuel ih =>
    intro q s st hg hrun
    match q with
    | [] =>
      rw [buildRec_nil] at hrun
      rw [← Option.some.inj hrun]
      exact hg
    | (cur, depth) :: rest =>
      rw [buildRec_cons] at hrun
      exact ih _ _ _ (ginv_step fetch maxD cur depth rest s hg) hrun

/-! ### Claim C5: at most one fetch per package name -/

/-- C5: in one build invocation every package name is fetched at most once
— the log of fetch attempts of a completed run has no duplicates — and
every fetched name is in the global visited set (the root is seeded before
traversal, dependencies are marked visited when first enqueued). -/
theorem c5_fetch_at_most_once :
    ∀ (fetch : ManifestSource) (root : String) (maxD fuel : Nat) (st : BState),
    build fetch root maxD fuel = some st →
    st.fetchLog.Nodup ∧ (∀ n ∈ st.fetchLog, n ∈ st.visited) := by
  intro fetch root maxD fuel st h
  have hg := ginv_run fetch maxD fuel [(root, 0)] (initState root) st
    (ginv_init fetch root) h
  constructor
  · have hn := hg.nodupLog
    simpa using hn
  · intro n hn
    exact hg.visSup n (Or.inr (Or.inr hn))

/-- C5 witness: the diamond build's fetch log (root `A`, `maxDepth = 5`)
has no duplicate fetches. -/
theorem c5_fetch_at_most_once_witness :
    ((build fDia "A" 5 20).getD (initState "A")).fetchLog.Nodup ∧
    (∀ n ∈ ((build fDia "A" 5 20).getD (initState "A")).fetchLog,
      n ∈ ((build fDia "A" 5 20).getD (initState "A")).visited) :=
  c5_fetch_at_most_once fDia "A" 5 20 ((build fDia "A" 5 20).getD (initState "A")) rfl

/-! ### Claim C1 (amended): the recorded cycle diagnostics -/

/-- C1 (amended): the builder keeps no recursion stack; every cycle
diagnostic it records is the pair `(current, dep)` of a direct mutual edge
of the final recorded graph (each of the two packages is a ForwardGraph key
whose recorded dependency set contains the other), a dependency that
triggers the cycle check is not enqueued by that edge, and on `A→{B},
B→{A}` exactly the pair `(B, A)` is recorded. -/
theorem c1_amended_mutual_cycle :
    (∀ (fetch : ManifestSource) (root : String) (maxD fuel : Nat) (st : BState),
       build fetch root maxD fuel = some st →
       ∀ p ∈ st.cycles, MutualEdge st.graph p.1 p.2) ∧
    (∀ (g : Graph) (cur dep : String) (depth : Nat) (deps v : List String)
       (c : List (String × String)) (q : List (String × Nat)),
       isCycleEdge g cur dep = true →
       ((dep, depth + 1) ∈ (procDeps g cur depth deps v c q).queue ↔
         (dep, depth + 1) ∈ q)) ∧
    (build fCyc2 "A" 3 10).map BState.cycles = some [("B", "A")] := by
  refine ⟨?_, ?_, rfl⟩
  · intro fetch root maxD fuel st h p hp
    have hg := ginv_run fetch maxD fuel [(root, 0)] (initState root) st
      (ginv_init fetch root) h
    exact hg.cyclesMut p hp
  · intro g cur dep depth deps v c q hc
    obtain ⟨news, _, hq, _, hnews, _⟩ := procDeps_spec g cur depth deps v c q
    rw [hq]
    constructor
    · intro hmem
      rcases List.mem_append.mp hmem with hq' | hn
      · exact hq'
      · obtain ⟨x, hx, hxeq⟩ := List.mem_map.mp hn
        have : x = dep := congrArg Prod.fst hxeq
        rw [this] at hx
        rw [(hnews dep hx).2.2] at hc
        cases hc
    · exact fun hmem => List.mem_append_left _ hmem

/-- C1 witness: the recorded pair `(B, A)` of the two-node cycle is a
mutual edge of the final recorded graph. -/
theorem c1_amended_mutual_cycle_witness :
    MutualEdge ((build fCyc2 "A" 3 10).getD (initState "A")).graph "B" "A" :=
  c1_amended_mutual_cycle.1 fCyc2 "A" 3 10
    ((build fCyc2 "A" 3 10).getD (initState "A")) rfl ("B", "A") (by decide)

/-! ### Claim C2 (amended): fetch failure handling per backend -/

/-- C2 (amended): the file-backed source never fails — a missing package
(or unreadable file) yields version `unknown` with an empty dependency set,
and a node dequeued within the depth bound is always recorded as a
ForwardGraph key — whereas with the remote source a node whose fetch fails
is never a key of the completed build's graph (it is only named in the
error diagnostics); in both cases the build continues past the failure, as
the concrete remote run (failure on `B`, siblings still built) shows. -/
theorem c2_fetch_failure :
    (∀ (data : List (String × RawEntry)) (name : String),
       lookupA data name = none →
       get_package_info_from_file (some data) name = ⟨"unknown", []⟩) ∧
    (∀ name, get_package_info_from_file none name = ⟨"unknown", []⟩) ∧
    (∀ (file : Option (List (String × RawEntry))) (maxD : Nat) (cur : String)
       (depth : Nat) (rest : List (String × Nat)) (s : BState), ¬ maxD < depth →
       cur ∈ keysL ((buildStep (fileSource file) maxD cur depth rest s).2.graph)) ∧
    (∀ (fetch : ManifestSource) (root : String) (maxD fuel : Nat) (st : BState)
       (n e : String), build fetch root maxD fuel = some st →
       fetch n = Except.error e → n ∉ keysL st.graph) ∧
    ((build fRemoteFail "A" 3 10).map BState.errors = some ["B"] ∧
     (build fRemoteFail "A" 3 10).map (fun s => keysL s.graph) = some ["A", "C"]) := by
  refine ⟨?_, ?_, ?_, ?_, rfl, rfl⟩
  · intro data name h
    simp [get_package_info_from_file, h]
  · intro name
    rfl
  · intro file maxD cur depth rest s ht
    rw [buildStep_ok rest s ht (show fileSource file cur =
      Except.ok (get_package_info_from_file file cur) from rfl)]
    exact mem_keys_updateG s.graph cur (get_package_info_from_file file cur)
  · intro fetch root maxD fuel st n e h hfail hmem
    have hg := ginv_run fetch maxD fuel [(root, 0)] (initState root) st
      (ginv_init fetch root) h
    have hsome : (lookupA st.graph n).isSome := lookupA_isSome_iff.mpr hmem
    rcases hl : lookupA st.graph n with _ | i
    · rw [hl] at hsome
      cases hsome
    · have := hg.keysFetched n i hl
      rw [hfail] at this
      cases this

/-- C2 witness: a missing package in the file backend yields the default
empty record, and the concrete failing remote node `B` is not a key of the
completed build's graph. -/
theorem c2_fetch_failure_witness :
    get_package_info_from_file (some []) "Z" = ⟨"unknown", []⟩ ∧
    "B" ∉ keysL ((build fRemoteFail "A" 3 10).getD (initState "A")).graph :=
  ⟨c2_fetch_failure.1 [] "Z" rfl,
   c2_fetch_failure.2.2.2.1 fRemoteFail "A" 3 10
     ((build fRemoteFail "A" 3 10).getD (initState "A")) "B" "network failure" rfl rfl⟩

/-! ### Totality of the builder -/

theorem buildStep_queue_shape (fetch : ManifestSource) (maxD : Nat) (cur : String)
    (depth : Nat) (rest : List (String × Nat)) (s : BState) :
    ∃ news : List (String × Nat),
      (buildStep fetch maxD cur depth rest s).1 = rest ++ news ∧
      (∀ p ∈ news, p.2 = depth + 1) ∧
      (maxD < depth → news = []) := by
  by_cases ht : maxD < depth
  · rw [buildStep_trunc _ _ _ _ ht]
    exact ⟨[], by simp, by simp, fun _ => rfl⟩
  · rcases hf : fetch cur with e | info
    · rw [buildStep_error _ _ ht hf]
      exact ⟨[], by simp, by simp, fun h => absurd h ht⟩
    · rw [buildStep_ok _ _ ht hf]
      obtain ⟨news, _, hq, _, _, _⟩ := procDeps_spec (updateG s.graph cur info) cur
        depth (depKeys info) s.visited s.cycles rest
      refine ⟨news.map (fun x => (x, depth + 1)), hq, ?_, fun h => absurd h ht⟩
      intro p hp
      obtain ⟨x, _, hxe⟩ := List.mem_map.mp hp
      rw [← hxe]

theorem pairwise_le_const {l : List Nat} {a : Nat} (h : ∀ x ∈ l, x = a) :
    l.Pairwise (· ≤ ·) := by
  induction l with
  | nil => exact List.Pairwise.nil
  | cons x t ih =>
    refine List.Pairwise.cons ?_ (ih fun y hy => h y (List.mem_cons_of_mem _ hy))
    intro y hy
    rw [h x (List.mem_cons_self _ _), h y (List.mem_cons_of_mem _ hy)]

/-- The builder's queue recursion always completes within some finite fuel,
for every manifest source: the queue depths are nondecreasing, span at most
two consecutive levels and are bounded by `maxDepth + 1`, so a lexicographic
measure (remaining levels, entries left on the current level) decreases. -/
theorem buildRec_total (fetch : ManifestSource) (maxD : Nat) :
    ∀ (m c : Nat) (q : List (String × Nat)) (s : BState),
    (q.map Prod.snd).Sorted (· ≤ ·) →
    (∀ p ∈ q, ∀ r ∈ q, p.2 ≤ r.2 + 1) →
    (∀ p ∈ q, p.2 ≤ maxD + 1) →
    maxD + 2 - headDepth q ≤ m →
    (q.map Prod.snd).count (headDepth q) ≤ c →
    ∃ fuel st, buildRec fetch maxD fuel q s = some st := by
  intro m
  induction m using Nat.strong_induction_on with
  | _ m IHm =>
    intro c
    induction c using Nat.strong_induction_on with
    | _ c IHc =>
      intro q s hsort hwin hbnd hm hc
      rcases q with _ | ⟨⟨cur, d⟩, rest⟩
      · exact ⟨0, s, buildRec_nil fetch maxD 0 s⟩
      · have hd_le : d ≤ maxD + 1 := hbnd (cur, d) (List.mem_cons_self _ _)
        obtain ⟨news, hshape, hnews, hnewsTrunc⟩ :=
          buildStep_queue_shape fetch maxD cur d rest s
        have hsort0 : List.Sorted (fun x1 x2 => x1 ≤ x2) (d :: rest.map Prod.snd) := hsort
        have hsortc := List.sorted_cons.mp hsort0
        have hrest_ge : ∀ p ∈ rest, d ≤ p.2 := by
          intro p hp
          exact hsortc.1 p.2 (List.mem_map_of_mem Prod.snd hp)
        have hrest_le : ∀ p ∈ rest, p.2 ≤ d + 1 := by
          intro p hp
          exact hwin p (List.mem_cons_of_mem _ hp) (cur, d) (List.mem_cons_self _ _)
        have hnewssnd : ∀ x ∈ news.map Prod.snd, x = d + 1 := by
          intro x hx
          obtain ⟨p, hp, hpe⟩ := List.mem_map.mp hx
          rw [← hpe]
          exact hnews p hp
        have hsort' : ((rest ++ news).map Prod.snd).Sorted (· ≤ ·) := by
          rw [List.map_append]
          refine List.pairwise_append.mpr ⟨hsortc.2, pairwise_le_const hnewssnd, ?_⟩
          intro a ha b hb
          obtain ⟨p, hp, hpe⟩ := List.mem_map.mp ha
          rw [hnewssnd b hb, ← hpe]
          exact hrest_le p hp
        have hwin' : ∀ p ∈ rest ++ news, ∀ r ∈ rest ++ news, p.2 ≤ r.2 + 1 := by
          intro p hp r hr
          have hple : p.2 ≤ d + 1 := by
            rcases List.mem_append.mp hp with h' | h'
            · exact hrest_le p h'
            · rw [hnews p h']
          have hrge : d ≤ r.2 := by
            rcases List.mem_append.mp hr with h' | h'
            · exact hrest_ge r h'
            · rw [hnews r h']
              omega
          omega
        have hbnd' : ∀ p ∈ rest ++ news, p.2 ≤ maxD + 1 := by
          intro p hp
          rcases List.mem_append.mp hp with h' | h'
          · exact hbnd p (List.mem_cons_of_mem _ h')
          · have hne : news ≠ [] := List.ne_nil_of_mem h'
            have hdm : ¬ maxD < d := fun hlt => hne (hnewsTrunc hlt)
            have := hnews p h'
            omega
        have hcnt_news : (news.map Prod.snd).count d = 0 := by
          refine List.count_eq_zero.mpr ?_
          intro hmem
          have := hnewssnd d hmem
          omega
        rcases hq'e : rest ++ news with _ | ⟨⟨n', d'⟩, tail'⟩
        · refine ⟨1, (buildStep fetch maxD cur d rest s).2, ?_⟩
          rw [buildRec_cons, hshape, hq'e, buildRec_nil]
        · have hd'cases : d' = d ∨ d' = d + 1 := by
            rcases rest with _ | ⟨p, rrest⟩
            · have : (n', d') ∈ news := by
                rw [List.nil_append] at hq'e
                rw [hq'e]
                exact List.mem_cons_self _ _
              have := hnews _ this
              right
              exact this
            · have hpe : p = (n', d') := by
                rw [List.cons_append] at hq'e
                exact (List.cons.inj hq'e).1
              have h1 : d ≤ d' := by
                have := hrest_ge p (List.mem_cons_self _ _)
                rw [hpe] at this
                exact this
              have h2 : d' ≤ d + 1 := by
                have := hrest_le p (List.mem_cons_self _ _)
                rw [hpe] at this
                exact this
              omega
          have hhd' : headDepth (rest ++ news) = d' := by rw [hq'e]; rfl
          have hcnt_q : ((cur, d) :: rest |>.map Prod.snd).count d =
              (rest.map Prod.snd).count d + 1 := by
            simp [List.count_cons]
          have hcnt_q' : ((rest ++ news).map Prod.snd).count d =
              (rest.map Prod.snd).count d := by
            rw [List.map_append, List.count_append, hcnt_news]
            omega
          rcases hd'cases with rfl | rfl
          · -- same level: the count of current-depth entries decreases
            have hclt : ((rest ++ news).map Prod.snd).count d' < c := by
              have hhq : headDepth ((cur, d') :: rest) = d' := rfl
              rw [hhq] at hc
              omega
            obtain ⟨fuel, st, hrun⟩ :=
              IHc (((rest ++ news).map Prod.snd).count d') hclt (rest ++ news)
                (buildStep fetch maxD cur d' rest s).2 hsort' hwin' hbnd'
                (by rw [hhd']; rw [show headDepth ((cur, d') :: rest) = d' from rfl] at hm; exact hm)
                (by rw [hhd'])
            exact ⟨fuel + 1, st, by rw [buildRec_cons, hshape]; exact hrun⟩
          · -- next level: the number of remaining levels decreases
            have hmge : 1 ≤ maxD + 2 - d := by omega
            have hmlt : maxD + 2 - (d + 1) < m := by
              have : maxD + 2 - d ≤ m := hm
              omega
            obtain ⟨fuel, st, hrun⟩ :=
              IHm (maxD + 2 - (d + 1)) hmlt (((rest ++ news).map Prod.snd).count (d + 1))
                (rest ++ news) (buildStep fetch maxD cur d rest s).2 hsort' hwin' hbnd'
                (by rw [hhd']) (by rw [hhd'])
            exact ⟨fuel + 1, st, by rw [buildRec_cons, hshape]; exact hrun⟩

/-! ### Claim C6: the build never fails once started -/

/-- C6: for every manifest source, every root and every depth bound, the
build completes within some finite fuel and returns a state bundling the
(possibly incomplete) ForwardGraph with its diagnostics; every node whose
fetch fails is swallowed at the node boundary — it merely contributes an
entry to the error diagnostics of the returned state. -/
theorem c6_build_never_fails :
    ∀ (fetch : ManifestSource) (root : String) (maxD : Nat),
    ∃ fuel st, build fetch root maxD fuel = some st ∧
      ∀ n ∈ st.errors, ∃ e, fetch n = Except.error e := by
  intro fetch root maxD
  obtain ⟨fuel, st, hrun⟩ := buildRec_total fetch maxD (maxD + 2) 1
    [(root, 0)] (initState root)
    (List.sorted_singleton 0)
    (by
      intro p hp r hr
      have h1 := List.mem_singleton.mp hp
      have h2 := List.mem_singleton.mp hr
      subst h1
      subst h2
      simp)
    (by
      intro p hp
      have h1 := List.mem_singleton.mp hp
      subst h1
      simp)
    (by simp [headDepth])
    (by simp [headDepth])
  refine ⟨fuel, st, hrun, ?_⟩
  have hg := ginv_run fetch maxD fuel [(root, 0)] (initState root) st
    (ginv_init fetch root) hrun
  exact hg.errsFail

/-! ### Reachability: basic lemmas -/

theorem reachN_mono {fetch : ManifestSource} {root : String} {k k' : Nat}
    (h : k ≤ k') {n : String} :
    ReachN fetch root k n → ReachN fetch root k' n := by
  induction h with
  | refl => exact id
  | step _ ih => exact fun hr => Or.inl (ih hr)

theorem mem_keys_lookup {g : Graph} {n : String} (h : n ∈ keysL g) :
    ∃ j, lookupA g n = some j := by
  have hs : (lookupA g n).isSome := lookupA_isSome_iff.mpr h
  rcases hl : lookupA g n with _ | j
  · rw [hl] at hs
    cases hs
  · exact ⟨j, rfl⟩

theorem binv_init (fetch : ManifestSource) (root : String) :
    BInv fetch root [(root, 0)] (initState root) := by
  refine ⟨?_, ?_, ?_, ?_, ?_, ?_, ?_, ?_, ?_, ?_, ?_, ?_⟩
  · simp [keysL, initState]
  · intro x
    simp [keysL, initState]
  · intro p hp
    rw [List.mem_singleton.mp hp]
    exact ⟨rfl, fun k _ => Nat.zero_le k⟩
  · exact List.sorted_singleton 0
  · intro p hp r hr
    rw [List.mem_singleton.mp hp, List.mem_singleton.mp hr]
    omega
  · intro n _ hr
    have : n = root := hr
    rw [this]
    simp [initState]
  · intro n _ hr
    have : n = root := hr
    rw [this]
    exact Or.inr (List.mem_singleton.mpr rfl)
  · intro n i h
    simp [initState, lookupA] at h
  · intro n h
    simp [keysL, initState] at h
  · intro n i h
    simp [initState, lookupA] at h
  · rfl
  · simp [initState]

theorem map_fst_map_pair (news : List String) (d : Nat) :
    (news.map (fun x => (x, d))).map Prod.fst = news := by
  rw [List.map_map]
  rw [show (Prod.fst ∘ fun x : String => (x, d)) = fun x : String => x from rfl]
  rw [List.map_id']

theorem binv_step (fetch : ManifestSource) (root : String) (maxD : Nat)
    (HOK : ∀ n, Reach fetch root n → ∃ i, fetch n = Except.ok i)
    (HD : ∀ n, Reach fetch root n → ReachN fetch root maxD n)
    (cur : String) (d : Nat) (rest : List (String × Nat)) (s : BState)
    (h : BInv fetch root ((cur, d) :: rest) s) :
    BInv fetch root (buildStep fetch maxD cur d rest s).1
      (buildStep fetch maxD cur d rest s).2 := by
  obtain ⟨nodupKQ, visEq, discQ, sortedQ, windowQ, frontierVis, frontierKey,
    keysOk, keysReach, depsVis, logKeys, rootVis⟩ := h
  simp only [List.map_cons] at nodupKQ
  have hdisc : Disc fetch root cur d := discQ (cur, d) (List.mem_cons_self _ _)
  have hreach : Reach fetch root cur := ⟨d, hdisc.1⟩
  have hdmax : d ≤ maxD := hdisc.2 maxD (HD cur hreach)
  have ht : ¬ maxD < d := by omega
  obtain ⟨info, hf⟩ := HOK cur hreach
  rw [buildStep_ok rest s ht hf]
  have hcurVis : cur ∈ s.visited :=
    (visEq cur).mpr (Or.inr (by simp))
  have hcurNotKey : cur ∉ keysL s.graph := by
    intro hmem
    exact (List.nodup_append.mp nodupKQ).2.2 hmem (List.mem_cons_self _ _)
  have hcurNone : lookupA s.graph cur = none := lookupA_eq_none_iff.mpr hcurNotKey
  have hupd : updateG s.graph cur info = s.graph ++ [(cur, info)] :=
    updateG_of_not_mem info hcurNotKey
  rw [hupd]
  obtain ⟨news, hv, hq, hnodup, hnews, hcomp⟩ :=
    procDeps_spec (s.graph ++ [(cur, info)]) cur d (depKeys info)
      s.visited s.cycles rest
  rw [hq, hv]
  show BInv fetch root (rest ++ news.map (fun x => (x, d + 1)))
      { graph := s.graph ++ [(cur, info)], visited := s.visited ++ news,
        cycles := (procDeps (s.graph ++ [(cur, info)]) cur d (depKeys info)
          s.visited s.cycles rest).cycles,
        warnings := s.warnings, errors := s.errors, fetchLog := s.fetchLog ++ [cur] }
  have hkeys' : keysL (s.graph ++ [(cur, info)]) = keysL s.graph ++ [cur] := by
    unfold keysL
    rw [List.map_append]
    rfl
  have hnewsFresh : ∀ x ∈ news, x ∉ s.visited := fun x hx => (hnews x hx).2.1
  have hqnames : (rest ++ news.map (fun x => (x, d + 1))).map Prod.fst =
      rest.map Prod.fst ++ news := by
    rw [List.map_append, map_fst_map_pair]
  have hnewsDisc : ∀ x ∈ news, Disc fetch root x (d + 1) := by
    intro x hx
    refine ⟨Or.inr ⟨cur, info, hdisc.1, hf, (hnews x hx).1⟩, ?_⟩
    intro k hk
    by_contra hlt
    have hkd : k ≤ d := by omega
    have : ReachN fetch root d x := reachN_mono hkd hk
    exact hnewsFresh x hx (frontierVis x (List.cons_ne_nil _ _) this)
  have hnewsE : ∀ p ∈ news.map (fun x => (x, d + 1)), p.2 = d + 1 := by
    intro p hp
    obtain ⟨x, _, hxe⟩ := List.mem_map.mp hp
    rw [← hxe]
  have hsort0 : List.Sorted (fun x1 x2 => x1 ≤ x2) (d :: rest.map Prod.snd) := sortedQ
  have hsortc := List.sorted_cons.mp hsort0
  have hrest_ge : ∀ p ∈ rest, d ≤ p.2 := by
    intro p hp
    exact hsortc.1 p.2 (List.mem_map_of_mem Prod.snd hp)
  have hrest_le : ∀ p ∈ rest, p.2 ≤ d + 1 := by
    intro p hp
    exact windowQ p (List.mem_cons_of_mem _ hp) (cur, d) (List.mem_cons_self _ _)
  have hnewssnd : ∀ x ∈ (news.map (fun x => (x, d + 1))).map Prod.snd, x = d + 1 := by
    intro x hx
    obtain ⟨p, hp, hpe⟩ := List.mem_map.mp hx
    rw [← hpe]
    exact hnewsE p hp
  have hsort' : ((rest ++ news.map (fun x => (x, d + 1))).map Prod.snd).Sorted
      (fun x1 x2 => x1 ≤ x2) := by
    rw [List.map_append]
    refine List.pairwise_append.mpr ⟨hsortc.2, pairwise_le_const hnewssnd, ?_⟩
    intro a ha b hb
    obtain ⟨p, hp, hpe⟩ := List.mem_map.mp ha
    rw [hnewssnd b hb, ← hpe]
    exact hrest_le p hp
  have hallLe : ∀ p ∈ rest ++ news.map (fun x => (x, d + 1)), p.2 ≤ d + 1 := by
    intro p hp
    rcases List.mem_append.mp hp with h' | h'
    · exact hrest_le p h'
    · rw [hnewsE p h']
  have hallGe : ∀ p ∈ rest ++ news.map (fun x => (x, d + 1)), d ≤ p.2 := by
    intro p hp
    rcases List.mem_append.mp hp with h' | h'
    · exact hrest_ge p h'
    · rw [hnewsE p h']
      omega
  have hd1cases : ∀ (n1 : String) (d1 : Nat) (tail1 : List (String × Nat)),
      rest ++ news.map (fun x => (x, d + 1)) = (n1, d1) :: tail1 →
      d1 = d ∨ d1 = d + 1 := by
    intro n1 d1 tail1 he
    have hmem : (n1, d1) ∈ rest ++ news.map (fun x => (x, d + 1)) := by
      rw [he]
      exact List.mem_cons_self _ _
    have h1 := hallGe _ hmem
    have h2 := hallLe _ hmem
    omega
  have hallEq : ∀ (n1 : String) (tail1 : List (String × Nat)),
      rest ++ news.map (fun x => (x, d + 1)) = (n1, d + 1) :: tail1 →
      ∀ p ∈ rest ++ news.map (fun x => (x, d + 1)), p.2 = d + 1 := by
    intro n1 tail1 he p hp
    have hsorted2 := hsort'
    rw [he] at hsorted2
    simp only [List.map_cons] at hsorted2
    have hs2 := List.sorted_cons.mp hsorted2
    have hge : d + 1 ≤ p.2 := by
      rw [he] at hp
      rcases List.mem_cons.mp hp with rfl | htl
      · rfl
      · exact hs2.1 p.2 (List.mem_map_of_mem Prod.snd htl)
    have hle := hallLe p hp
    omega
  have hfvNext : (∀ p ∈ rest ++ news.map (fun x => (x, d + 1)), p.2 = d + 1) →
      ∀ n, ReachN fetch root (d + 1) n → n ∈ s.visited ++ news := by
    intro hall n hn
    rcases hn with hn | ⟨m, i, hm, hfm, hdep⟩
    · exact List.mem_append_left _ (frontierVis n (List.cons_ne_nil _ _) hn)
    · rcases frontierKey m (List.cons_ne_nil _ _) hm with hk | hq''
      · obtain ⟨j, hj⟩ := mem_keys_lookup hk
        have hfj := keysOk m j hj
        have hji : j = i := by
          rw [hfm] at hfj
          exact (Except.ok.inj hfj).symm
        refine List.mem_append_left _ (depsVis m j hj n ?_)
        rw [hji]
        exact hdep
      · rcases List.mem_cons.mp hq'' with hhd2 | hrest'
        · have hmcur : m = cur := congrArg Prod.fst hhd2
          have hii : info = i := by
            rw [hmcur, hf] at hfm
            exact Except.ok.inj hfm
          have hdep' : n ∈ depKeys info := by
            rw [hii]
            exact hdep
          rcases hcomp n hdep' with hvn | hcyc
          · exact hvn
          · obtain ⟨j', hj', _⟩ := isCycleEdge_iff.mp hcyc
            have hnmem : n ∈ keysL (s.graph ++ [(cur, info)]) :=
              lookupA_isSome_iff.mp (by rw [hj']; rfl)
            rw [hkeys'] at hnmem
            rcases List.mem_append.mp hnmem with hk' | hc'
            · exact List.mem_append_left _ ((visEq n).mpr (Or.inl hk'))
            · rw [List.mem_singleton.mp hc']
              exact List.mem_append_left _ hcurVis
        · have hmemq : (m, d) ∈ rest ++ news.map (fun x => (x, d + 1)) :=
            List.mem_append_left _ hrest'
          have := hall _ hmemq
          omega
  refine ⟨?_, ?_, ?_, hsort', ?_, ?_, ?_, ?_, ?_, ?_, ?_, ?_⟩
  · -- nodupKQ
    rw [hqnames, hkeys']
    have hre : (keysL s.graph ++ [cur]) ++ (rest.map Prod.fst ++ news) =
        ((keysL s.graph ++ [cur]) ++ rest.map Prod.fst) ++ news := by
      simp [List.append_assoc]
    rw [hre, ← append_cons_eq]
    refine List.nodup_append.mpr ⟨nodupKQ, hnodup, ?_⟩
    intro a ha haNews
    have haVis : a ∈ s.visited := by
      rcases List.mem_append.mp ha with hk | hq'
      · exact (visEq a).mpr (Or.inl hk)
      · exact (visEq a).mpr (Or.inr (by simpa using hq'))
    exact hnewsFresh a haNews haVis
  · -- visEq
    intro x
    rw [hqnames, hkeys']
    constructor
    · intro hx
      rcases List.mem_append.mp hx with hv' | hn'
      · rcases (visEq x).mp hv' with hk | hq'
        · exact Or.inl (List.mem_append_left _ hk)
        · simp only [List.map_cons] at hq'
          rcases List.mem_cons.mp hq' with rfl | hrest'
          · exact Or.inl (List.mem_append_right _ (List.mem_singleton.mpr rfl))
          · exact Or.inr (List.mem_append_left _ hrest')
      · exact Or.inr (List.mem_append_right _ hn')
    · intro hx
      rcases hx with hk | hq'
      · rcases List.mem_append.mp hk with hk' | hc'
        · exact List.mem_append_left _ ((visEq x).mpr (Or.inl hk'))
        · rw [List.mem_singleton.mp hc']
          exact List.mem_append_left _ hcurVis
      · rcases List.mem_append.mp hq' with hrest' | hn'
        · exact List.mem_append_left _
            ((visEq x).mpr (Or.inr (by simp [hrest'])))
        · exact List.mem_append_right _ hn'
  · -- discQ
    intro p hp
    rcases List.mem_append.mp hp with hrest' | hnews'
    · exact discQ p (List.mem_cons_of_mem _ hrest')
    · obtain ⟨x, hx, hxe⟩ := List.mem_map.mp hnews'
      rw [← hxe]
      exact hnewsDisc x hx
  · -- windowQ
    intro p hp r hr
    have h1 := hallLe p hp
    have h2 := hallGe r hr
    omega
  · -- frontierVis
    intro n hne hreach'
    rcases hq'e : rest ++ news.map (fun x => (x, d + 1)) with _ | ⟨⟨n1, d1⟩, tail1⟩
    · exact absurd hq'e hne
    · have hhd : headDepth (rest ++ news.map (fun x => (x, d + 1))) = d1 := by
        rw [hq'e]
        rfl
      rw [hhd] at hreach'
      rcases hd1cases n1 d1 tail1 hq'e with rfl | rfl
      · exact List.mem_append_left _ (frontierVis n (List.cons_ne_nil _ _) hreach')
      · exact hfvNext (hallEq n1 tail1 hq'e) n hreach'
  · -- frontierKey
    intro n hne hreach'
    rcases hq'e : rest ++ news.map (fun x => (x, d + 1)) with _ | ⟨⟨n1, d1⟩, tail1⟩
    · exact absurd hq'e hne
    · have hhd : headDepth (rest ++ news.map (fun x => (x, d + 1))) = d1 := by
        rw [hq'e]
        rfl
      rw [hhd] at hreach'
      show n ∈ keysL (s.graph ++ [(cur, info)]) ∨ (n, d1) ∈ (n1, d1) :: tail1
      rw [← hq'e]
      rcases hd1cases n1 d1 tail1 hq'e with rfl | rfl
      · rcases frontierKey n (List.cons_ne_nil _ _) hreach' with hk | hq''
        · exact Or.inl (by rw [hkeys']; exact List.mem_append_left _ hk)
        · rcases List.mem_cons.mp hq'' with hhd2 | hrest'
          · have : n = cur := congrArg Prod.fst hhd2
            refine Or.inl ?_
            rw [hkeys', this]
            exact List.mem_append_right _ (List.mem_singleton.mpr rfl)
          · exact Or.inr (List.mem_append_left _ hrest')
      · have hmem := hfvNext (hallEq n1 tail1 hq'e) n hreach'
        rcases List.mem_append.mp hmem with hvn | hnews'
        · rcases (visEq n).mp hvn with hk | hq''
          · exact Or.inl (by rw [hkeys']; exact List.mem_append_left _ hk)
          · simp only [List.map_cons] at hq''
            rcases List.mem_cons.mp hq'' with rfl | hrest'
            · refine Or.inl ?_
              rw [hkeys']
              exact List.mem_append_right _ (List.mem_singleton.mpr rfl)
            · obtain ⟨p, hp, hpe⟩ := List.mem_map.mp hrest'
              have hp2 := hallEq n1 tail1 hq'e p (List.mem_append_left _ hp)
              have hpn : p = (n, d + 1) := by
                rcases p with ⟨p1, p2⟩
                simp only at hpe hp2
                rw [hpe, hp2]
              refine Or.inr ?_
              rw [← hpn]
              exact List.mem_append_left _ hp
        · refine Or.inr (List.mem_append_right _ ?_)
          exact List.mem_map.mpr ⟨n, hnews', rfl⟩
  · -- keysOk
    intro n i hlk
    rcases hn : lookupA s.graph n with _ | j
    · rw [lookupA_append_of_none hn, lookupA_singleton] at hlk
      by_cases hcn : cur = n
      · rw [if_pos hcn] at hlk
        rw [← hcn, hf]
        exact congrArg Except.ok (Option.some.inj hlk)
      · rw [if_neg hcn] at hlk
        cases hlk
    · rw [lookupA_append_of_some hn] at hlk
      rw [← Option.some.inj hlk]
      exact keysOk n j hn
  · -- keysReach
    intro n hn
    rw [hkeys'] at hn
    rcases List.mem_append.mp hn with hk | hc
    · exact keysReach n hk
    · rw [List.mem_singleton.mp hc]
      exact hreach
  · -- depsVis
    intro n i hlk d' hd'
    rcases hn : lookupA s.graph n with _ | j
    · rw [lookupA_append_of_none hn, lookupA_singleton] at hlk
      by_cases hcn : cur = n
      · rw [if_pos hcn] at hlk
        have hii : info = i := Option.some.inj hlk
        have hd'' : d' ∈ depKeys info := by
          rw [hii]
          exact hd'
        rcases hcomp d' hd'' with hvn | hcyc
        · exact hvn
        · obtain ⟨j', hj', _⟩ := isCycleEdge_iff.mp hcyc
          have hnmem : d' ∈ keysL (s.graph ++ [(cur, info)]) :=
            lookupA_isSome_iff.mp (by rw [hj']; rfl)
          rw [hkeys'] at hnmem
          rcases List.mem_append.mp hnmem with hk' | hc'
          · exact List.mem_append_left _ ((visEq d').mpr (Or.inl hk'))
          · rw [List.mem_singleton.mp hc']
            exact List.mem_append_left _ hcurVis
      · rw [if_neg hcn] at hlk
        cases hlk
    · rw [lookupA_append_of_some hn] at hlk
      have hji : j = i := Option.some.inj hlk
      refine List.mem_append_left _ (depsVis n j hn d' ?_)
      rw [hji]
      exact hd'
  · -- logKeys
    rw [hkeys', logKeys]
  · -- rootVis
    exact List.mem_append_left _ rootVis

theorem binv_run (fetch : ManifestSource) (root : String) (maxD : Nat)
    (HOK : ∀ n, Reach fetch root n → ∃ i, fetch n = Except.ok i)
    (HD : ∀ n, Reach fetch root n → ReachN fetch root maxD n) :
    ∀ (fuel : Nat) (q : List (String × Nat)) (s st : BState),
    BInv fetch root q s → buildRec fetch maxD fuel q s = some st →
    BInv fetch root [] st := by
  intro fuel
  induction fuel with
  | zero =>
    intro q s st hb hrun
    match q with
    | [] =>
      rw [buildRec_nil] at hrun
      rw [← Option.some.inj hrun]
      exact hb
    | _ :: _ => cases hrun
  | succ fuel ih =>
    intro q s st hb hrun
    match q with
    | [] =>
      rw [buildRec_nil] at hrun
      rw [← Option.some.inj hrun]
      exact hb
    | (cur, d) :: rest =>
      rw [buildRec_cons] at hrun
      exact ih _ _ _ (binv_step fetch root maxD HOK HD cur d rest s hb) hrun

theorem binv_final {fetch : ManifestSource} {root : String} {st : BState}
    (h : BInv fetch root [] st) :
    (∀ n, n ∈ keysL st.graph ↔ Reach fetch root n) ∧
    st.fetchLog = keysL st.graph ∧ st.fetchLog.Nodup := by
  have hvk : ∀ x, x ∈ st.visited ↔ x ∈ keysL st.graph := by
    intro x
    rw [h.visEq x]
    simp
  have haux : ∀ k n, ReachN fetch root k n → n ∈ keysL st.graph := by
    intro k
    induction k with
    | zero =>
      intro n hn
      have : n = root := hn
      rw [this]
      exact (hvk root).mp h.rootVis
    | succ k ih =>
      intro n hn
      rcases hn with hn | ⟨m, i, hm, hfm, hdep⟩
      · exact ih n hn
      · have hmkey := ih m hm
        obtain ⟨j, hj⟩ := mem_keys_lookup hmkey
        have hfj := h.keysOk m j hj
        have hji : j = i := by
          rw [hfm] at hfj
          exact (Except.ok.inj hfj).symm
        refine (hvk n).mp (h.depsVis m j hj n ?_)
        rw [hji]
        exact hdep
  refine ⟨?_, h.logKeys, ?_⟩
  · intro n
    constructor
    · exact h.keysReach n
    · intro ⟨k, hk⟩
      exact haux k n hk
  · rw [h.logKeys]
    have := h.nodupKQ
    simpa using this

/-! ### Claim C3: the closure property -/

/-- C3: whenever every package reachable from the root fetches successfully
and is reachable within `maxDepth` steps (which holds in particular when
`maxDepth` is at least the graph diameter), a completed build's
ForwardGraph key set is exactly the set of packages reachable from the
root, and the fetch log is exactly that key set with no duplicates — each
reachable package is fetched exactly once.  On the literal diamond manifest
`{A:[B,C], B:[D], C:[D], D:[]}` with root `A` and `maxDepth = 5` the
ForwardGraph is exactly `{A:{B,C}, B:{D}, C:{D}, D:{}}` and no cycles are
reported. -/
theorem c3_closure :
    (∀ (fetch : ManifestSource) (root : String) (maxD fuel : Nat) (st : BState),
       (∀ n, Reach fetch root n → ∃ i, fetch n = Except.ok i) →
       (∀ n, Reach fetch root n → ReachN fetch root maxD n) →
       build fetch root maxD fuel = some st →
       (∀ n, n ∈ keysL st.graph ↔ Reach fetch root n) ∧
       st.fetchLog = keysL st.graph ∧ st.fetchLog.Nodup) ∧
    ((build fDia "A" 5 20).map BState.graph = some
       [("A", ⟨"1.0.0", [("B", "^1"), ("C", "^1")]⟩),
        ("B", ⟨"1.0.0", [("D", "^1")]⟩),
        ("C", ⟨"1.0.0", [("D", "^1")]⟩),
        ("D", ⟨"1.0.0", []⟩)] ∧
     (build fDia "A" 5 20).map BState.cycles = some []) := by
  refine ⟨?_, rfl, rfl⟩
  intro fetch root maxD fuel st HOK HD hrun
  exact binv_final
    (binv_run fetch root maxD HOK HD fuel [(root, 0)] (initState root) st
      (binv_init fetch root) hrun)

theorem dia_mem : ∀ (k : Nat) (n : String),
    ReachN fDia "A" k n → n ∈ ["A", "B", "C", "D"] := by
  intro k
  induction k with
  | zero =>
    intro n hn
    have : n = "A" := hn
    simp [this]
  | succ k ih =>
    intro n hn
    rcases hn with hn | ⟨m, i, hm, hfm, hdep⟩
    · exact ih n hn
    · have hmmem := ih m hm
      simp only [List.mem_cons, List.mem_singleton, List.not_mem_nil, or_false] at hmmem
      rcases hmmem with rfl | rfl | rfl | rfl
      · rw [show fDia "A" = Except.ok
          ({ version := "1.0.0", dependencies := [("B", "^1"), ("C", "^1")] } : NodeInfo)
          from rfl] at hfm
        obtain rfl := Except.ok.inj hfm
        simp [depKeys] at hdep
        rcases hdep with rfl | rfl <;> simp
      · rw [show fDia "B" = Except.ok
          ({ version := "1.0.0", dependencies := [("D", "^1")] } : NodeInfo)
          from rfl] at hfm
        obtain rfl := Except.ok.inj hfm
        simp [depKeys] at hdep
        rw [hdep]
        simp
      · rw [show fDia "C" = Except.ok
          ({ version := "1.0.0", dependencies := [("D", "^1")] } : NodeInfo)
          from rfl] at hfm
        obtain rfl := Except.ok.inj hfm
        simp [depKeys] at hdep
        rw [hdep]
        simp
      · rw [show fDia "D" = Except.ok
          ({ version := "1.0.0", dependencies := [] } : NodeInfo)
          from rfl] at hfm
        obtain rfl := Except.ok.inj hfm
        simp [depKeys] at hdep

theorem dia_within : ∀ n, Reach fDia "A" n → ReachN fDia "A" 5 n := by
  intro n hr
  obtain ⟨k, hk⟩ := hr
  have hmem := dia_mem k n hk
  have hA : ReachN fDia "A" 0 "A" := rfl
  have hB : ReachN fDia "A" 1 "B" :=
    Or.inr ⟨"A", ⟨"1.0.0", [("B", "^1"), ("C", "^1")]⟩, rfl, rfl, by simp [depKeys]⟩
  have hC : ReachN fDia "A" 1 "C" :=
    Or.inr ⟨"A", ⟨"1.0.0", [("B", "^1"), ("C", "^1")]⟩, rfl, rfl, by simp [depKeys]⟩
  have hD : ReachN fDia "A" 2 "D" :=
    Or.inr ⟨"B", ⟨"1.0.0", [("D", "^1")]⟩, hB, rfl, by simp [depKeys]⟩
  simp only [List.mem_cons, List.mem_singleton, List.not_mem_nil, or_false] at hmem
  rcases hmem with rfl | rfl | rfl | rfl
  · exact reachN_mono (by omega) hA
  · exact reachN_mono (by omega) hB
  · exact reachN_mono (by omega) hC
  · exact reachN_mono (by omega) hD

/-- C3 witness: the closure theorem applied to the diamond manifest — `D`
is a key exactly because it is reachable, and the fetch log of the run has
no duplicates. -/
theorem c3_closure_witness :
    ("D" ∈ keysL ((build fDia "A" 5 20).getD (initState "A")).graph ↔
      Reach fDia "A" "D") ∧
    ((build fDia "A" 5 20).getD (initState "A")).fetchLog.Nodup := by
  have h := c3_closure.1 fDia "A" 5 20 ((build fDia "A" 5 20).getD (initState "A"))
    (fun n _ => ⟨get_package_info_from_file diaFile n, rfl⟩) dia_within rfl
  exact ⟨h.1 "D", h.2.2⟩
